import Mathlib

/-!
Verification of the git-analyzer commit-history aggregation and
classification engine (`src/main.rs`) against its design specification.

The embedding is shallow: timestamps are Unix seconds (`Int`), as produced
by `author.when().seconds()`; `chrono` hour/weekday extraction for a UTC
instant is arithmetic on seconds; hash maps are modelled as total functions
into `Option`; ratios computed by the classifier in `f32` are modelled in
`ℚ` (the branch structure and count arithmetic are exact; every threshold
comparison is on short decimal constants).
-/

namespace GitAnalyzer

/-- UTC hour of day (0-23) of a Unix timestamp, as `chrono`'s
`DateTime<Utc>::hour()` returns for `calculate_work_pattern`. -/
def hourOf (t : Int) : Nat :=
  (t.emod 86400).toNat / 3600

/-- Days since the Unix epoch (floor), the day index of a timestamp. -/
def dayIndex (t : Int) : Int :=
  t.ediv 86400

/-- Weekday number of a Unix timestamp, 0 = Sunday .. 6 = Saturday
(1970-01-01 was a Thursday, day index 0, weekday 4). -/
def weekdayOf (t : Int) : Nat :=
  ((dayIndex t + 4).emod 7).toNat

/-- `time.weekday() == Weekday::Sat || time.weekday() == Weekday::Sun`. -/
def isWeekend (t : Int) : Bool :=
  weekdayOf t == 6 || weekdayOf t == 0

/-- `hour >= 9 && hour < 18` — the business-hours test of the classifier. -/
def isDayHour (t : Int) : Bool :=
  decide (9 ≤ hourOf t) && decide (hourOf t < 18)

/-- The counting loop of `calculate_work_pattern`: one pass over the
timestamps accumulating `(day_commits, night_commits, weekend_commits)`.
Mirrors the loop body: the weekend tally is incremented for Saturday or
Sunday, and independently exactly one of day/night is incremented by the
hour test. -/
def workCounts (commit_times : List Int) : Nat × Nat × Nat :=
  commit_times.foldl
    (fun acc time =>
      let acc := if isWeekend time then (acc.1, acc.2.1, acc.2.2 + 1) else acc
      if isDayHour time then (acc.1 + 1, acc.2.1, acc.2.2)
      else (acc.1, acc.2.1 + 1, acc.2.2))
    (0, 0, 0)

/-- Result record of the classifier (`struct WorkPattern`). -/
structure WorkPattern where
  pattern_type : String
  day_commits : Nat
  night_commits : Nat
  weekend_commits : Nat
  confidence : ℚ
  deriving Repr, DecidableEq

/-- `calculate_work_pattern` from `src/main.rs` (lines 287-330): count
day/night/weekend commits, form the three ratios, and decide the pattern
by the four-branch cascade. Rust `f32` ratios are modelled in `ℚ`;
Rust `a.min(b)` is `min a b` with the receiver first. -/
def calculate_work_pattern (commit_times : List Int) : WorkPattern :=
  let counts := workCounts commit_times
  let day_commits := counts.1
  let night_commits := counts.2.1
  let weekend_commits := counts.2.2
  let total_commits := commit_times.length
  let day_ratio : ℚ := (day_commits : ℚ) / (total_commits : ℚ)
  let night_ratio : ℚ := (night_commits : ℚ) / (total_commits : ℚ)
  let weekend_ratio : ℚ := (weekend_commits : ℚ) / (total_commits : ℚ)
  let pc : String × ℚ :=
    if total_commits < 5 then ("unknown", 0)
    else if day_ratio ≥ 7/10 ∧ weekend_ratio < 3/10 then
      ("day_worker", day_ratio)
    else if night_ratio ≥ 6/10 ∨ weekend_ratio ≥ 4/10 then
      ("moonlighter", min (night_ratio + weekend_ratio * (1/2)) 1)
    else
      ("mixed", 1 - |day_ratio - night_ratio|)
  { pattern_type := pc.1
    day_commits := day_commits
    night_commits := night_commits
    weekend_commits := weekend_commits
    confidence := pc.2 }

/-- The decision table for `total >= 5` exactly as the specification words
it: rules evaluated in order over the three ratios, first match wins. -/
def spec_decision (day_ratio night_ratio weekend_ratio : ℚ) : String × ℚ :=
  if day_ratio ≥ 7/10 ∧ weekend_ratio < 3/10 then
    ("day_worker", day_ratio)
  else if night_ratio ≥ 6/10 ∨ weekend_ratio ≥ 4/10 then
    ("moonlighter", min 1 (night_ratio + (1/2) * weekend_ratio))
  else
    ("mixed", 1 - |day_ratio - night_ratio|)

/-- The counting pass, characterised: starting from any accumulator it adds
the number of day-hour timestamps, of non-day-hour timestamps, and of
weekend timestamps. -/
theorem workCounts_foldl (ts : List Int) (d n w : Nat) :
    ts.foldl
      (fun acc time =>
        let acc := if isWeekend time then (acc.1, acc.2.1, acc.2.2 + 1) else acc
        if isDayHour time then (acc.1 + 1, acc.2.1, acc.2.2)
        else (acc.1, acc.2.1 + 1, acc.2.2))
      (d, n, w) =
    (d + ts.countP isDayHour, n + ts.countP (fun t => !isDayHour t),
      w + ts.countP isWeekend) := by
  induction ts generalizing d n w with
  | nil => simp
  | cons t ts ih =>
    simp only [List.foldl_cons, List.countP_cons]
    cases hw : isWeekend t <;> cases hd : isDayHour t <;>
      simp [ih, hw, hd] <;> omega

/-- `workCounts` counts day-hour, night-hour and weekend timestamps. -/
theorem workCounts_eq (ts : List Int) :
    workCounts ts =
      (ts.countP isDayHour, ts.countP (fun t => !isDayHour t),
        ts.countP isWeekend) := by
  simpa using workCounts_foldl ts 0 0 0

theorem calculate_work_pattern_day (ts : List Int) :
    (calculate_work_pattern ts).day_commits = ts.countP isDayHour := by
  simp [calculate_work_pattern, workCounts_eq]

theorem calculate_work_pattern_night (ts : List Int) :
    (calculate_work_pattern ts).night_commits =
      ts.countP (fun t => !isDayHour t) := by
  simp [calculate_work_pattern, workCounts_eq]

theorem calculate_work_pattern_weekend (ts : List Int) :
    (calculate_work_pattern ts).weekend_commits = ts.countP isWeekend := by
  simp [calculate_work_pattern, workCounts_eq]

/-- Day-hour and night-hour counts partition the timestamp list. -/
theorem countP_day_add_night (ts : List Int) :
    ts.countP isDayHour + ts.countP (fun t => !isDayHour t) = ts.length := by
  induction ts with
  | nil => simp
  | cons t ts ih =>
    cases h : isDayHour t <;> simp [List.countP_cons, h] <;> omega

/-- A Saturday at 10:00 UTC: 1970-01-03 10:00:00, day index 2. -/
def saturdayTenAM : Int := 2 * 86400 + 10 * 3600

/-- C3: each timestamp increments exactly one of `day_commits` (hour in
[9,18)) and `night_commits` (all other hours), and additionally increments
`weekend_commits` iff its UTC weekday is Saturday or Sunday; hence
`day_commits + night_commits` equals the number of timestamps, and the
Saturday-10:00 example is counted in both the day and the weekend tally. -/
theorem c3_day_night_weekend_counting (ts : List Int) :
    (calculate_work_pattern ts).day_commits = ts.countP isDayHour ∧
    (calculate_work_pattern ts).night_commits =
      ts.countP (fun t => !isDayHour t) ∧
    (calculate_work_pattern ts).weekend_commits = ts.countP isWeekend ∧
    (calculate_work_pattern ts).day_commits +
      (calculate_work_pattern ts).night_commits = ts.length ∧
    (isDayHour saturdayTenAM = true ∧ isWeekend saturdayTenAM = true ∧
      (calculate_work_pattern [saturdayTenAM]).day_commits = 1 ∧
      (calculate_work_pattern [saturdayTenAM]).weekend_commits = 1) := by
  refine ⟨calculate_work_pattern_day ts, calculate_work_pattern_night ts,
    calculate_work_pattern_weekend ts, ?_, by decide⟩
  rw [calculate_work_pattern_day, calculate_work_pattern_night]
  exact countP_day_add_night ts

/-- C1: for five or more timestamps the classifier decides by exactly the
specified rule cascade over `day_ratio = day_commits/total`,
`night_ratio = night_commits/total`, `weekend_ratio = weekend_commits/total`:
day_worker when `day_ratio ≥ 0.7 ∧ weekend_ratio < 0.3` with confidence
`day_ratio`; else moonlighter when `night_ratio ≥ 0.6 ∨ weekend_ratio ≥ 0.4`
with confidence `min 1 (night_ratio + 0.5 * weekend_ratio)`; else mixed with
confidence `1 - |day_ratio - night_ratio|`. -/
theorem c1_classifier_decision_rules (ts : List Int) (h : 5 ≤ ts.length) :
    ((calculate_work_pattern ts).pattern_type,
      (calculate_work_pattern ts).confidence) =
    spec_decision
      (((calculate_work_pattern ts).day_commits : ℚ) / (ts.length : ℚ))
      (((calculate_work_pattern ts).night_commits : ℚ) / (ts.length : ℚ))
      (((calculate_work_pattern ts).weekend_commits : ℚ) / (ts.length : ℚ)) := by
  have hlt : ¬ ts.length < 5 := by omega
  simp only [calculate_work_pattern, spec_decision, hlt, if_false]
  split
  · rfl
  · split
    · simp [min_comm, mul_comm]
    · rfl

/-- C1 witness: five 10:00 timestamps on Thursday through Monday — all day
hours but two weekend days, so `weekend_ratio = 0.4` sends the cascade to
the moonlighter branch. -/
theorem c1_classifier_decision_rules_witness :
    ((calculate_work_pattern [36000, 122400, 208800, 295200, 381600]).pattern_type,
      (calculate_work_pattern [36000, 122400, 208800, 295200, 381600]).confidence) =
    spec_decision
      (((calculate_work_pattern [36000, 122400, 208800, 295200, 381600]).day_commits : ℚ) / 5)
      (((calculate_work_pattern [36000, 122400, 208800, 295200, 381600]).night_commits : ℚ) / 5)
      (((calculate_work_pattern [36000, 122400, 208800, 295200, 381600]).weekend_commits : ℚ) / 5) :=
  c1_classifier_decision_rules [36000, 122400, 208800, 295200, 381600] (by decide)

/-- C2: fewer than five timestamps always classify as unknown with
confidence 0, whatever the distribution; the function is total (the `ℚ`
ratios, like the Rust `f32` NaN on the empty list, never fault). -/
theorem c2_below_threshold_unknown (ts : List Int) (h : ts.length < 5) :
    (calculate_work_pattern ts).pattern_type = "unknown" ∧
    (calculate_work_pattern ts).confidence = 0 := by
  simp [calculate_work_pattern, h]

/-- C2 witness: the empty list classifies as unknown with confidence 0. -/
theorem c2_below_threshold_unknown_witness :
    (calculate_work_pattern []).pattern_type = "unknown" ∧
    (calculate_work_pattern []).confidence = 0 :=
  c2_below_threshold_unknown [] (by decide)

/-- C4: the classifier's confidence always lies in [0, 1]. -/
theorem c4_confidence_in_unit_interval (ts : List Int) :
    0 ≤ (calculate_work_pattern ts).confidence ∧
    (calculate_work_pattern ts).confidence ≤ 1 := by
  have hday : (calculate_work_pattern ts).day_commits = ts.countP isDayHour :=
    calculate_work_pattern_day ts
  have hd_le : ts.countP isDayHour ≤ ts.length := List.countP_le_length _
  have hn_le : ts.countP (fun t => !isDayHour t) ≤ ts.length :=
    List.countP_le_length _
  have hsum := countP_day_add_night ts
  simp only [calculate_work_pattern, workCounts_eq]
  split
  · simp
  · rename_i htot
    have hpos : (0 : ℚ) < (ts.length : ℚ) := by
      have : 5 ≤ ts.length := by omega
      exact_mod_cast by omega
    split
    · constructor
      · positivity
      · rw [div_le_one hpos]
        exact_mod_cast hd_le
    · split
      · constructor
        · apply le_min
          · positivity
          · norm_num
        · exact min_le_right _ _
      · have hD : ((ts.countP isDayHour : ℚ)) / (ts.length : ℚ) +
            ((ts.countP (fun t => !isDayHour t) : ℚ)) / (ts.length : ℚ) = 1 := by
          rw [div_add_div_same, div_eq_one_iff_eq (ne_of_gt hpos)]
          exact_mod_cast hsum
        set d : ℚ := ((ts.countP isDayHour : ℚ)) / (ts.length : ℚ) with hd
        set n : ℚ := ((ts.countP (fun t => !isDayHour t) : ℚ)) / (ts.length : ℚ)
          with hn
        have hd0 : 0 ≤ d := by rw [hd]; positivity
        have hn0 : 0 ≤ n := by rw [hn]; positivity
        have habs : |d - n| ≤ 1 := by
          rw [abs_le]
          constructor <;> nlinarith
        have habs0 : 0 ≤ |d - n| := abs_nonneg _
        constructor <;> simp only [] <;> linarith

/-- Earliest Unix timestamp `chrono::DateTime::from_timestamp` accepts:
00:00:00 on January 1 of year -262143, the minimum `NaiveDate` year
(`MIN_YEAR = (i32::MIN >> 13) + 1`). -/
def chronoMinTimestamp : Int := -8334601228800

/-- Latest Unix timestamp `chrono::DateTime::from_timestamp` accepts:
23:59:59 on December 31 of year 262142, the maximum `NaiveDate` year
(`MAX_YEAR = (i32::MAX >> 13) - 1`). -/
def chronoMaxTimestamp : Int := 8210266876799

/-- `DateTime::from_timestamp(secs, 0)`: `some` exactly when the seconds
value lands inside chrono's representable date range, `none` on overflow. -/
def fromTimestamp (secs : Int) : Option Int :=
  if chronoMinTimestamp ≤ secs ∧ secs ≤ chronoMaxTimestamp then some secs
  else none

/-- `DateTime::from_timestamp(author.when().seconds(), 0).unwrap_or_default()`:
a timestamp that fails to convert defaults to the Unix epoch (0 seconds). -/
def commit_time (secs : Int) : Int :=
  (fromTimestamp secs).getD 0

/-- A commit as the walker exposes it to the aggregators: optional author
name and email (git allows both to be absent) and the raw author-time
seconds from `author.when().seconds()`. -/
structure Commit where
  name : Option String
  email : Option String
  seconds : Int
  deriving Repr, DecidableEq

/-- The bucket key `format!("{} <{}>", author_name, author_email)` with the
source's defaults for absent name and email. -/
def commitKey (c : Commit) : String :=
  c.name.getD "Unknown" ++ " <" ++ c.email.getD "unknown@example.com" ++ ">"

/-- Per-contributor accumulator: the fields of `ContributorStats` the fold
updates, plus the side list of timestamps kept for the classifier. -/
structure ContribState where
  commits : Nat
  first_commit : Int
  last_commit : Int
  times : List Int
  deriving Repr, DecidableEq

/-- The `and_modify` arm: bump the count, pull `first_commit` down and
`last_commit` up by strict comparison, append the timestamp. -/
def contribUpdate (s : ContribState) (t : Int) : ContribState :=
  { commits := s.commits + 1
    first_commit := if t < s.first_commit then t else s.first_commit
    last_commit := if s.last_commit < t then t else s.last_commit
    times := s.times ++ [t] }

/-- The `or_insert` arm: a fresh bucket from a single commit. -/
def contribInit (t : Int) : ContribState :=
  { commits := 1, first_commit := t, last_commit := t, times := [t] }

/-- One loop iteration of `collect_contributor_data`: update the bucket of
the commit's key, leave every other bucket unchanged. -/
def contribStep (m : String → Option ContribState) (c : Commit) :
    String → Option ContribState :=
  fun k =>
    if k = commitKey c then
      match m (commitKey c) with
      | some s => some (contribUpdate s (commit_time c.seconds))
      | none => some (contribInit (commit_time c.seconds))
    else m k

/-- The revwalk fold of `collect_contributor_data` (lines 224-271), with
the `HashMap` modelled as a total function into `Option ContribState`. -/
def collect_contributor_data (l : List Commit) : String → Option ContribState :=
  l.foldl contribStep (fun _ => none)

/-- `calculate_hourly_distribution` (lines 332-341): hour-of-day histogram
of a timestamp list, the `HashMap<u8, u32>` modelled as a total function
defaulting to 0. -/
def calculate_hourly_distribution (commit_times : List Int) : Nat → Nat :=
  commit_times.foldl
    (fun m time => fun h => if h = hourOf time then m h + 1 else m h)
    (fun _ => 0)

/-- The timestamps, in walk order, of the commits that fall in bucket `k`. -/
def keyTimes (l : List Commit) (k : String) : List Int :=
  (l.filter (fun c => decide (commitKey c = k))).map
    (fun c => commit_time c.seconds)

/-- What one bucket holds as a function of its commits' timestamps alone:
nothing if no commit hit the bucket, otherwise the fold of updates over the
first-inserted state. -/
def timesFold : List Int → Option ContribState
  | [] => none
  | t :: ts => some (ts.foldl contribUpdate (contribInit t))

theorem timesFold_append_single (ts : List Int) (t : Int) :
    timesFold (ts ++ [t]) =
      some (match timesFold ts with
            | none => contribInit t
            | some s => contribUpdate s t) := by
  cases ts with
  | nil => rfl
  | cons t0 rest => simp [timesFold, List.foldl_append]

/-- Bucket contents depend only on the timestamps routed to the bucket:
the contributor fold at key `k` equals the per-bucket fold of `keyTimes`. -/
theorem collect_eq_timesFold (l : List Commit) (k : String) :
    collect_contributor_data l k = timesFold (keyTimes l k) := by
  induction l using List.reverseRecOn with
  | nil => rfl
  | append_singleton l c ih =>
    simp only [collect_contributor_data, List.foldl_append, List.foldl_cons,
      List.foldl_nil] at *
    by_cases hk : k = commitKey c
    · have hkt : keyTimes (l ++ [c]) k = keyTimes l k ++ [commit_time c.seconds] := by
        simp [keyTimes, List.filter_append, hk.symm]
      rw [hkt, timesFold_append_single]
      simp only [contribStep]
      rw [if_pos hk, ← hk, ih]
      cases timesFold (keyTimes l k) <;> rfl
    · have hne : commitKey c ≠ k := fun h2 => hk h2.symm
      have hkt : keyTimes (l ++ [c]) k = keyTimes l k := by
        simp [keyTimes, List.filter_append, hne]
      simp only [contribStep]
      rw [if_neg hk, ih, hkt]

theorem foldl_contribUpdate_commits (ts : List Int) (s : ContribState) :
    (ts.foldl contribUpdate s).commits = s.commits + ts.length := by
  induction ts generalizing s with
  | nil => simp
  | cons t ts ih => simp [ih, contribUpdate]; omega

theorem foldl_contribUpdate_first (ts : List Int) (s : ContribState) :
    (ts.foldl contribUpdate s).first_commit = ts.foldl min s.first_commit := by
  induction ts generalizing s with
  | nil => rfl
  | cons t ts ih =>
    simp only [List.foldl_cons, ih]
    congr 1
    simp [contribUpdate, min_def]
    split <;> split <;> omega

theorem foldl_contribUpdate_last (ts : List Int) (s : ContribState) :
    (ts.foldl contribUpdate s).last_commit = ts.foldl max s.last_commit := by
  induction ts generalizing s with
  | nil => rfl
  | cons t ts ih =>
    simp only [List.foldl_cons, ih]
    congr 1
    simp [contribUpdate, max_def]
    split <;> split <;> omega

theorem foldl_contribUpdate_times (ts : List Int) (s : ContribState) :
    (ts.foldl contribUpdate s).times = s.times ++ ts := by
  induction ts generalizing s with
  | nil => simp
  | cons t ts ih => simp [ih, contribUpdate]

theorem foldl_min_mem (ts : List Int) (a : Int) :
    ts.foldl min a ∈ a :: ts := by
  induction ts generalizing a with
  | nil => simp
  | cons t ts ih =>
    simp only [List.foldl_cons]
    rcases List.mem_cons.mp (ih (min a t)) with h | h
    · rcases min_choice a t with hm | hm <;> rw [h, hm] <;> simp
    · simp [h]

theorem foldl_min_le (ts : List Int) (a : Int) :
    ∀ x ∈ a :: ts, ts.foldl min a ≤ x := by
  induction ts generalizing a with
  | nil => intro x hx; simp_all
  | cons t ts ih =>
    intro x hx
    simp only [List.foldl_cons]
    have hself : ts.foldl min (min a t) ≤ min a t :=
      ih (min a t) _ (List.mem_cons_self _ _)
    rcases List.mem_cons.mp hx with h | h
    · subst h; exact le_trans hself (min_le_left x t)
    · rcases List.mem_cons.mp h with h2 | h2
      · subst h2; exact le_trans hself (min_le_right a x)
      · exact ih (min a t) x (List.mem_cons_of_mem _ h2)

theorem foldl_min_perm {a₁ a₂ : Int} {ts₁ ts₂ : List Int}
    (h : (a₁ :: ts₁).Perm (a₂ :: ts₂)) :
    ts₁.foldl min a₁ = ts₂.foldl min a₂ := by
  apply le_antisymm
  · exact foldl_min_le ts₁ a₁ _ (h.mem_iff.mpr (foldl_min_mem ts₂ a₂))
  · exact foldl_min_le ts₂ a₂ _ (h.mem_iff.mp (foldl_min_mem ts₁ a₁))

theorem foldl_le_max (ts : List Int) (a : Int) :
    ∀ x ∈ a :: ts, x ≤ ts.foldl max a := by
  induction ts generalizing a with
  | nil => intro x hx; simp_all
  | cons t ts ih =>
    intro x hx
    simp only [List.foldl_cons]
    have hself : max a t ≤ ts.foldl max (max a t) :=
      ih (max a t) _ (List.mem_cons_self _ _)
    rcases List.mem_cons.mp hx with h | h
    · subst h; exact le_trans (le_max_left x t) hself
    · rcases List.mem_cons.mp h with h2 | h2
      · subst h2; exact le_trans (le_max_right a x) hself
      · exact ih (max a t) x (List.mem_cons_of_mem _ h2)

theorem foldl_max_mem (ts : List Int) (a : Int) :
    ts.foldl max a ∈ a :: ts := by
  induction ts generalizing a with
  | nil => simp
  | cons t ts ih =>
    simp only [List.foldl_cons]
    rcases List.mem_cons.mp (ih (max a t)) with h | h
    · rcases max_choice a t with hm | hm <;> rw [h, hm] <;> simp
    · simp [h]

theorem foldl_max_perm {a₁ a₂ : Int} {ts₁ ts₂ : List Int}
    (h : (a₁ :: ts₁).Perm (a₂ :: ts₂)) :
    ts₁.foldl max a₁ = ts₂.foldl max a₂ := by
  apply le_antisymm
  · exact foldl_le_max ts₂ a₂ _ (h.mem_iff.mp (foldl_max_mem ts₁ a₁))
  · exact foldl_le_max ts₁ a₁ _ (h.mem_iff.mpr (foldl_max_mem ts₂ a₂))

theorem hourly_foldl (ts : List Int) (m : Nat → Nat) (h : Nat) :
    (ts.foldl
      (fun m time => fun h => if h = hourOf time then m h + 1 else m h) m) h =
    m h + ts.countP (fun t => decide (hourOf t = h)) := by
  induction ts generalizing m with
  | nil => simp
  | cons t ts ih =>
    simp only [List.foldl_cons, List.countP_cons, ih]
    by_cases he : h = hourOf t <;> simp [he, eq_comm] <;> omega

/-- The hourly histogram counts, per hour, the timestamps with that hour. -/
theorem calculate_hourly_distribution_eq_countP (ts : List Int) (h : Nat) :
    calculate_hourly_distribution ts h =
      ts.countP (fun t => decide (hourOf t = h)) := by
  simpa using hourly_foldl ts (fun _ => 0) h

/-- The output fields of one contributor bucket named by claim C5:
commit count, first and last commit instants, and the hourly histogram the
final record is given. -/
def contribView (s : ContribState) : Nat × Int × Int × (Nat → Nat) :=
  (s.commits, s.first_commit, s.last_commit,
    calculate_hourly_distribution s.times)

/-- C5: contributor aggregation is order-independent — folding any
permutation of the commit list yields, for every bucket key, the same
commit count, the same first and last commit (true min/max of timestamps,
not visit order), and the same hourly histogram. -/
theorem c5_aggregation_order_independent (l₁ l₂ : List Commit)
    (h : l₁.Perm l₂) (k : String) :
    (collect_contributor_data l₁ k).map contribView =
      (collect_contributor_data l₂ k).map contribView := by
  rw [collect_eq_timesFold, collect_eq_timesFold]
  have hperm : (keyTimes l₁ k).Perm (keyTimes l₂ k) :=
    (h.filter _).map _
  cases e₁ : keyTimes l₁ k with
  | nil =>
    rw [e₁] at hperm
    rw [← hperm.nil_eq]
  | cons t₁ ts₁ =>
    rw [e₁] at hperm
    cases e₂ : keyTimes l₂ k with
    | nil =>
      rw [e₂] at hperm
      have := hperm.length_eq
      simp at this
    | cons t₂ ts₂ =>
      rw [e₂] at hperm
      simp only [timesFold, Option.map_some', Option.some.injEq, contribView,
        Prod.mk.injEq]
      have hlen : ts₁.length = ts₂.length := by
        have := hperm.length_eq
        simpa using this
      refine ⟨?_, ?_, ?_, ?_⟩
      · rw [foldl_contribUpdate_commits, foldl_contribUpdate_commits]
        simp [contribInit, hlen]
      · rw [foldl_contribUpdate_first, foldl_contribUpdate_first]
        exact foldl_min_perm hperm
      · rw [foldl_contribUpdate_last, foldl_contribUpdate_last]
        exact foldl_max_perm hperm
      · funext hh
        rw [foldl_contribUpdate_times, foldl_contribUpdate_times]
        simp only [contribInit]
        rw [calculate_hourly_distribution_eq_countP,
          calculate_hourly_distribution_eq_countP]
        exact hperm.countP_eq _

/-- C5 witness: two commits by different authors folded in both orders give
the same view of the bucket of the first author. -/
theorem c5_aggregation_order_independent_witness :
    (collect_contributor_data
        [⟨some "Alice", some "a@x.com", 36000⟩,
          ⟨some "Bob", some "b@x.com", 208800⟩]
        "Alice <a@x.com>").map contribView =
    (collect_contributor_data
        [⟨some "Bob", some "b@x.com", 208800⟩,
          ⟨some "Alice", some "a@x.com", 36000⟩]
        "Alice <a@x.com>").map contribView :=
  c5_aggregation_order_independent
    [⟨some "Alice", some "a@x.com", 36000⟩, ⟨some "Bob", some "b@x.com", 208800⟩]
    [⟨some "Bob", some "b@x.com", 208800⟩, ⟨some "Alice", some "a@x.com", 36000⟩]
    (by decide) "Alice <a@x.com>"

/-- The commit count of the bucket keyed `k` (0 when the bucket is absent). -/
def bucketCommits (l : List Commit) (k : String) : Nat :=
  (collect_contributor_data l k).elim 0 (fun s => s.commits)

theorem bucketCommits_eq_countP (l : List Commit) (k : String) :
    bucketCommits l k = l.countP (fun c => decide (commitKey c = k)) := by
  have hlen : (keyTimes l k).length =
      l.countP (fun c => decide (commitKey c = k)) := by
    simp [keyTimes, List.countP_eq_length_filter]
  rw [bucketCommits, collect_eq_timesFold]
  cases e : keyTimes l k with
  | nil =>
    rw [e] at hlen
    simp only [timesFold, Option.elim_none]
    simp at hlen
    omega
  | cons t ts =>
    rw [e] at hlen
    simp only [timesFold, Option.elim_some]
    rw [foldl_contribUpdate_commits]
    simp only [contribInit]
    simp at hlen
    omega

theorem bucketCommits_eq_count_map (l : List Commit) (k : String) :
    bucketCommits l k = (l.map commitKey).count k := by
  rw [bucketCommits_eq_countP, List.count, List.countP_map]
  apply List.countP_congr
  intro c _
  by_cases h : commitKey c = k <;> simp [h, Function.comp]

/-- C7: every commit lands in exactly one contributor bucket: the bucket
count at key `k` is the number of commits whose formatted key
`"{name} <{email}>"` is `k`, the bucket counts over the keys that occur sum
to the number of commits, absent author name formats as the literal
`Unknown`, and absent email as the sentinel `unknown@example.com`. -/
theorem c7_bucket_keying_partitions_commits (l : List Commit) (k : String) :
    bucketCommits l k = l.countP (fun c => decide (commitKey c = k)) ∧
    (∑ s ∈ (l.map commitKey).toFinset, bucketCommits l s) = l.length ∧
    (∀ (n e : String) (t : Int),
      commitKey ⟨some n, some e, t⟩ = n ++ " <" ++ e ++ ">") ∧
    (∀ t : Int, commitKey ⟨none, none, t⟩ = "Unknown <unknown@example.com>") := by
  refine ⟨bucketCommits_eq_countP l k, ?_, fun n e t => rfl, fun t => rfl⟩
  have hsum : (∑ s ∈ (l.map commitKey).toFinset, bucketCommits l s) =
      ∑ s ∈ (l.map commitKey).toFinset, (l.map commitKey).count s :=
    Finset.sum_congr rfl (fun s _ => bucketCommits_eq_count_map l s)
  rw [hsum]
  simp

/-- Proleptic-Gregorian `(year, month, day)` of a day index counted from
1970-01-01 — the standard civil-from-days conversion realising chrono's
calendar decomposition of a UTC date. -/
def civilFromDays (z0 : Int) : Int × Int × Int :=
  let z := z0 + 719468
  let era := z.fdiv 146097
  let doe := z - era * 146097
  let yoe := (doe - doe.ediv 1460 + doe.ediv 36524 - doe.ediv 146096).ediv 365
  let y := yoe + era * 400
  let doy := doe - (365 * yoe + yoe.ediv 4 - yoe.ediv 100)
  let mp := (5 * doy + 2).ediv 153
  let d := doy - (153 * mp + 2).ediv 5 + 1
  let m := mp + (if mp < 10 then 3 else -9)
  (y + (if m ≤ 2 then 1 else 0), m, d)

/-- Calendar year of a Unix timestamp. -/
def yearOf (t : Int) : Int := (civilFromDays (dayIndex t)).1

/-- Calendar month (1-12) of a Unix timestamp. -/
def monthOf (t : Int) : Int := (civilFromDays (dayIndex t)).2.1

/-- Left-pad a natural number with zeros to the given width. -/
def padZeros (n : Nat) (w : Nat) : String :=
  let s := toString n
  if w ≤ s.length then s
  else String.mk (List.replicate (w - s.length) (Char.ofNat 48)) ++ s

/-- chrono `%Y`: years 0-9999 zero-padded to four digits, years outside
that range printed with an explicit sign. -/
def formatYearY (y : Int) : String :=
  if 0 ≤ y ∧ y < 10000 then padZeros y.toNat 4
  else (if y < 0 then "-" else "+") ++ padZeros y.natAbs 4

/-- `commit_time.format("%Y-%m")`, the monthly-activity bucket key. -/
def month_key (t : Int) : String :=
  formatYearY (yearOf t) ++ "-" ++ padZeros (monthOf t).toNat 2

/-- One loop iteration of `collect_activity_data`: bump the month bucket of
the commit's `%Y-%m` key and the hour bucket of its UTC hour. -/
def activityStep (acc : (String → Nat) × (Nat → Nat)) (c : Commit) :
    (String → Nat) × (Nat → Nat) :=
  let t := commit_time c.seconds
  (fun k => if k = month_key t then acc.1 k + 1 else acc.1 k,
    fun h => if h = hourOf t then acc.2 h + 1 else acc.2 h)

/-- The revwalk fold of `collect_activity_data` (lines 413-436), the two
`HashMap`s modelled as total functions defaulting to 0. -/
def collect_activity_data (l : List Commit) : (String → Nat) × (Nat → Nat) :=
  l.foldl activityStep (fun _ => 0, fun _ => 0)

theorem commit_time_of_range_overflow {s : Int}
    (h : s < chronoMinTimestamp ∨ chronoMaxTimestamp < s) :
    commit_time s = 0 := by
  have hnot : ¬(chronoMinTimestamp ≤ s ∧ s ≤ chronoMaxTimestamp) := by
    rcases h with h | h <;> omega
  simp [commit_time, fromTimestamp, hnot]

/-- C8: an author timestamp outside chrono's convertible range defaults to
the Unix epoch (0 seconds = 1970-01-01T00:00:00Z), and both walks continue
to completion: the analysis of a commit list containing such a commit is
exactly the analysis with that commit's raw seconds replaced by the epoch,
never a failure. -/
theorem c8_unconvertible_timestamp_defaults_to_epoch (s : Int)
    (pre post : List Commit) (n e : Option String)
    (h : s < chronoMinTimestamp ∨ chronoMaxTimestamp < s) :
    commit_time s = 0 ∧
    collect_contributor_data (pre ++ ⟨n, e, s⟩ :: post) =
      collect_contributor_data (pre ++ ⟨n, e, 0⟩ :: post) ∧
    collect_activity_data (pre ++ ⟨n, e, s⟩ :: post) =
      collect_activity_data (pre ++ ⟨n, e, 0⟩ :: post) := by
  have hct : commit_time s = 0 := commit_time_of_range_overflow h
  have hct0 : commit_time (0 : Int) = 0 := by decide
  have hcc : commit_time ((⟨n, e, s⟩ : Commit)).seconds =
      commit_time ((⟨n, e, 0⟩ : Commit)).seconds := by
    show commit_time s = commit_time 0
    rw [hct, hct0]
  refine ⟨hct, ?_, ?_⟩
  · have h1 : ∀ m, contribStep m ⟨n, e, s⟩ = contribStep m ⟨n, e, 0⟩ := by
      intro m
      funext k
      simp only [contribStep, hcc]
      rfl
    simp only [collect_contributor_data, List.foldl_append, List.foldl_cons]
    rw [h1]
  · have h2 : ∀ acc, activityStep acc ⟨n, e, s⟩ = activityStep acc ⟨n, e, 0⟩ := by
      intro acc
      simp only [activityStep, hcc]
    simp only [collect_activity_data, List.foldl_append, List.foldl_cons]
    rw [h2]

/-- C8 witness: one second past chrono's maximum timestamp defaults to the
epoch and leaves both analyses of a one-commit history identical to the
epoch-timestamped history. -/
theorem c8_unconvertible_timestamp_defaults_to_epoch_witness :
    commit_time 8210266876800 = 0 ∧
    collect_contributor_data [⟨some "Alice", some "a@x.com", 8210266876800⟩] =
      collect_contributor_data [⟨some "Alice", some "a@x.com", 0⟩] ∧
    collect_activity_data [⟨some "Alice", some "a@x.com", 8210266876800⟩] =
      collect_activity_data [⟨some "Alice", some "a@x.com", 0⟩] := by
  have h := c8_unconvertible_timestamp_defaults_to_epoch 8210266876800 [] []
    (some "Alice") (some "a@x.com") (Or.inr (by decide))
  simpa using h

/-- A commit as the file tracker sees it: raw author seconds, whether the
commit has a first parent, and the paths on the new side of the
first-parent tree diff (for a root commit no diff is computed, so whatever
its tree holds is invisible to the fold). -/
structure FileCommit where
  seconds : Int
  has_parent : Bool
  paths : List String
  deriving Repr, DecidableEq

/-- `struct FileStats` of the source. -/
structure FileStats where
  path : String
  commits : Nat
  last_modified : Int
  deriving Repr, DecidableEq

/-- The `and_modify`/`or_insert` pair of `collect_file_data`: first touch
inserts `commits = 1` with the commit's timestamp, later touches increment
and raise `last_modified` by strict comparison. -/
def fileTouch (o : Option FileStats) (p : String) (t : Int) : Option FileStats :=
  match o with
  | some s => some { s with
      commits := s.commits + 1
      last_modified := if s.last_modified < t then t else s.last_modified }
  | none => some { path := p, commits := 1, last_modified := t }

/-- The `diff.foreach` fold of one commit: every delta path updates its own
bucket. -/
def filePathsStep (t : Int) (m : String → Option FileStats) (ps : List String) :
    String → Option FileStats :=
  ps.foldl (fun m p => fun q => if q = p then fileTouch (m p) p t else m q) m

/-- One revwalk iteration of `collect_file_data`: commits with a first
parent fold their diff paths in, root commits contribute nothing. -/
def fileStep (m : String → Option FileStats) (c : FileCommit) :
    String → Option FileStats :=
  if c.has_parent then filePathsStep (commit_time c.seconds) m c.paths else m

/-- The revwalk fold of `collect_file_data` (lines 461-505), the `HashMap`
modelled as a total function into `Option FileStats`. -/
def collect_file_data (l : List FileCommit) : String → Option FileStats :=
  l.foldl fileStep (fun _ => none)

/-- What the path's bucket must hold given the sublist of commits that
touch the path: nothing when no commit touches it, else `commits` equal to
the number of touching commits and `last_modified` the running max of their
timestamps starting from the first touch. -/
def fileAgg (p : String) : List FileCommit → Option FileStats
  | [] => none
  | c :: cs => some
      { path := p
        commits := cs.length + 1
        last_modified :=
          cs.foldl (fun a d => max a (commit_time d.seconds))
            (commit_time c.seconds) }

theorem filePathsStep_at (ps : List String) (hnd : ps.Nodup)
    (m : String → Option FileStats) (p : String) (t : Int) :
    filePathsStep t m ps p =
      if p ∈ ps then fileTouch (m p) p t else m p := by
  induction ps generalizing m with
  | nil => simp [filePathsStep]
  | cons q ps ih =>
    have hq : q ∉ ps := (List.nodup_cons.mp hnd).1
    have hps : ps.Nodup := (List.nodup_cons.mp hnd).2
    simp only [filePathsStep, List.foldl_cons]
    rw [show (List.foldl (fun m p => fun q => if q = p then fileTouch (m p) p t else m q)
        (fun r => if r = q then fileTouch (m q) q t else m r) ps) =
        filePathsStep t (fun r => if r = q then fileTouch (m q) q t else m r) ps
      from rfl]
    rw [ih hps]
    by_cases hpq : p = q
    · subst hpq
      simp [hq]
    · simp [hpq, List.mem_cons, fun h2 : p = q => hpq h2]

theorem fileAgg_append_single (p : String) (cs : List FileCommit)
    (c : FileCommit) :
    fileAgg p (cs ++ [c]) =
      fileTouch (fileAgg p cs) p (commit_time c.seconds) := by
  cases cs with
  | nil => rfl
  | cons c0 rest =>
    simp only [List.cons_append, fileAgg, List.foldl_append, List.foldl_cons,
      List.foldl_nil, fileTouch, Option.some.injEq, FileStats.mk.injEq,
      List.length_append, List.length_cons, List.length_nil]
    refine ⟨trivial, trivial, ?_⟩
    split
    · rename_i h
      exact max_eq_right h.le
    · rename_i h
      exact max_eq_left (not_lt.mp h)

/-- The sublist of commits whose first-parent diff touches path `p`. -/
def touchers (l : List FileCommit) (p : String) : List FileCommit :=
  l.filter (fun c => c.has_parent && decide (p ∈ c.paths))

theorem collect_file_data_eq_fileAgg (l : List FileCommit) (p : String)
    (hnd : ∀ c ∈ l, c.paths.Nodup) :
    collect_file_data l p = fileAgg p (touchers l p) := by
  induction l using List.reverseRecOn with
  | nil => rfl
  | append_singleton l c ih =>
    have hl : ∀ d ∈ l, d.paths.Nodup := fun d hd =>
      hnd d (List.mem_append.mpr (Or.inl hd))
    have hc : c.paths.Nodup := hnd c (List.mem_append.mpr (Or.inr (by simp)))
    simp only [collect_file_data, List.foldl_append, List.foldl_cons,
      List.foldl_nil] at *
    cases hpar : c.has_parent with
    | false =>
      have ht : touchers (l ++ [c]) p = touchers l p := by
        simp [touchers, List.filter_append, hpar]
      rw [ht, ← ih hl]
      simp [fileStep, hpar]
    | true =>
      simp only [fileStep, hpar, if_pos]
      rw [filePathsStep_at c.paths hc _ p _]
      by_cases hin : p ∈ c.paths
      · have ht : touchers (l ++ [c]) p = touchers l p ++ [c] := by
          simp [touchers, List.filter_append, hpar, hin]
        rw [ht, fileAgg_append_single, if_pos hin, ih hl]
      · have ht : touchers (l ++ [c]) p = touchers l p := by
          simp [touchers, List.filter_append, hpar, hin]
        rw [ht, if_neg hin, ih hl]

/-- C6: for every path the file tracker folds exactly as specified — the
first commit whose first-parent diff touches the path inserts a record with
`commits = 1` and `last_modified` equal to that commit's timestamp, each
subsequent touching commit increments `commits` and maxes `last_modified`
(the bucket equals `fileAgg` of the touching sublist), and commits without
a parent contribute no paths, so a path touched only by root commits is
never recorded. The per-commit `Nodup` hypothesis states that one tree
diff lists a path at most once. -/
theorem c6_file_tracking_fold (l : List FileCommit) (p : String)
    (hnd : ∀ c ∈ l, c.paths.Nodup) :
    collect_file_data l p = fileAgg p (touchers l p) ∧
    ((∀ c ∈ l, p ∈ c.paths → c.has_parent = false) →
      collect_file_data l p = none) := by
  refine ⟨collect_file_data_eq_fileAgg l p hnd, fun hroot => ?_⟩
  have ht : touchers l p = [] := by
    apply List.filter_eq_nil_iff.mpr
    intro c hcl
    simp only [Bool.and_eq_true, decide_eq_true_eq, not_and]
    intro hpar hin
    rw [hroot c hcl hin] at hpar
    simp at hpar
  rw [collect_file_data_eq_fileAgg l p hnd, ht]
  rfl

/-- C6 witness: a history of a root commit holding `a`, a commit touching
`a` and `b`, and a later commit touching `b` — evaluated for path `b`. -/
theorem c6_file_tracking_fold_witness :
    (collect_file_data
        [⟨100, false, ["a"]⟩, ⟨200, true, ["a", "b"]⟩, ⟨300, true, ["b"]⟩]
        "b" =
      fileAgg "b"
        (touchers
          [⟨100, false, ["a"]⟩, ⟨200, true, ["a", "b"]⟩, ⟨300, true, ["b"]⟩]
          "b")) ∧
    ((∀ c ∈ ([⟨100, false, ["a"]⟩, ⟨200, true, ["a", "b"]⟩,
        ⟨300, true, ["b"]⟩] : List FileCommit), "b" ∈ c.paths →
        c.has_parent = false) →
      collect_file_data
        [⟨100, false, ["a"]⟩, ⟨200, true, ["a", "b"]⟩, ⟨300, true, ["b"]⟩]
        "b" = none) :=
  c6_file_tracking_fold
    [⟨100, false, ["a"]⟩, ⟨200, true, ["a", "b"]⟩, ⟨300, true, ["b"]⟩]
    "b" (by decide)

/-- Division as Rust integer `/`: `none` models the divide-by-zero panic. -/
def checkedDiv (a b : Nat) : Option Nat :=
  if b = 0 then none else some (a / b)

/-- The `transfer_progress` closure registered in `get_repo_path`
(lines 138-149): it computes `(100 * received_objects) / total_objects`
first and only afterwards tests `total_objects > 0` before printing, then
returns `true`. `none` models the arithmetic panic aborting the callback. -/
def transfer_progress (received total : Nat) : Option Bool :=
  match checkedDiv (100 * received) total with
  | none => none
  | some _network_pct => some true

/-- C9 is wrong about the code as written: a progress report with
`total_objects = 0` reaches the division before the `total_objects > 0`
guard, so the callback divides by zero (panics) instead of being
well-defined, as evaluation at `received = 0, total = 0` shows. -/
theorem c9_progress_callback_divides_by_zero :
    transfer_progress 0 0 = none := rfl

/-- `struct ContributorStats` of the source, as the analysis returns it. -/
structure ContributorStats where
  name : String
  email : String
  commits : Nat
  first_commit : Int
  last_commit : Int
  work_pattern : WorkPattern
  hourly_commits : Nat → Nat

/-- `sorted_contributors.sort_by(|a, b| b.commits.cmp(&a.commits))`. -/
def sort_contributors (v : List ContributorStats) : List ContributorStats :=
  v.mergeSort (fun a b => decide (b.commits ≤ a.commits))

/-- `sorted_files.sort_by(|a, b| b.commits.cmp(&a.commits))`. -/
def sort_files (v : List FileStats) : List FileStats :=
  v.mergeSort (fun a b => decide (b.commits ≤ a.commits))

/-- C10: the contributor and file outputs are sorted by commit count in
descending order and are rearrangements of the collected records, whatever
iteration order the hash map surrendered them in; no tie order is claimed. -/
theorem c10_outputs_sorted_by_commits_descending (v : List ContributorStats)
    (w : List FileStats) :
    (sort_contributors v).Pairwise (fun a b => b.commits ≤ a.commits) ∧
    (sort_contributors v).Perm v ∧
    (sort_files w).Pairwise (fun a b => b.commits ≤ a.commits) ∧
    (sort_files w).Perm w := by
  refine ⟨?_, List.mergeSort_perm v _, ?_, List.mergeSort_perm w _⟩
  · have h := @List.sorted_mergeSort ContributorStats
      (fun a b => decide (b.commits ≤ a.commits))
      (fun a b c h1 h2 => by
        simp only [decide_eq_true_eq] at *
        omega)
      (fun a b => by
        rcases Nat.le_total b.commits a.commits with h | h <;> simp [h])
      v
    exact h.imp (fun h2 => by simpa using h2)
  · have h := @List.sorted_mergeSort FileStats
      (fun a b => decide (b.commits ≤ a.commits))
      (fun a b c h1 h2 => by
        simp only [decide_eq_true_eq] at *
        omega)
      (fun a b => by
        rcases Nat.le_total b.commits a.commits with h | h <;> simp [h])
      w
    exact h.imp (fun h2 => by simpa using h2)

end GitAnalyzer
